import Mathlib

/-!
Shallow embedding of the memory-hierarchy simulator (`Source1.cpp`).

Conventions of the embedding:
* C++ `int` values that are only ever non-negative in the program (sizes,
  addresses, indices, counters) are `Nat`; tags keep the `-1` "invalid"
  sentinel and are `Int`; access times are `Int` (`-1` signals a miss).
* `std::time(nullptr)` is modelled by an oracle value `Oracle.t`, one sample
  per `access` call (all clock reads inside one access see the same value,
  which is one realizable wall-clock behaviour).
* `std::shuffle` of `randomIndices` is modelled by the oracle field
  `Oracle.perm` (the shuffled contents), and `std::rand() % numBlocks` by
  `Oracle.rnd % numBlocks`.
* `std::unordered_map<int,int>` (the LRU map) is modelled as an association
  list in insertion order; `operator[]` is update-or-append, `erase` removes
  the unique entry with the given key.  Iteration order of the C++ map is
  unspecified; the concrete runs proved below have pairwise distinct (or
  pairwise equal) timestamps, so the scanned minimum does not depend on it.
-/

namespace MemSim

inductive ReplacementPolicy where
  | FIFO
  | LRU
  | RANDOM
deriving DecidableEq, Repr

/-- `struct CacheBlock { int tag; bool valid; }`, default `tag = -1, valid = false`. -/
structure CacheBlock where
  tag : Int
  valid : Bool
deriving DecidableEq, Repr

instance : Inhabited CacheBlock := ⟨⟨-1, false⟩⟩

/-- Environment values consumed by one `access` call: the wall-clock sample
returned by `std::time`, the result of `std::shuffle` on `randomIndices`,
and the value drawn by `std::rand`. -/
structure Oracle where
  t : Int
  perm : List Nat
  rnd : Nat
deriving Repr

/-- The `Cache` class state (also used for RAM, as in the source). -/
structure Cache where
  size : Nat
  blockSize : Nat
  numBlocks : Nat
  policy : ReplacementPolicy
  accessTime : Int
  blocks : List CacheBlock
  fifoQueue : List Nat
  lruMap : List (Int × Int)
  randomIndices : List Nat
deriving DecidableEq, Repr

/-- `Cache::Cache(int s, int bs, int at, ReplacementPolicy rp)`:
`numBlocks = s / bs`, blocks default-initialized, `randomIndices = 0..numBlocks-1`
when the policy is RANDOM.  No validation of any kind is performed. -/
def mkCache (s bs : Nat) (t : Int) (rp : ReplacementPolicy) : Cache :=
  let n := s / bs
  { size := s
    blockSize := bs
    numBlocks := n
    policy := rp
    accessTime := t
    blocks := List.replicate n ⟨-1, false⟩
    fifoQueue := []
    lruMap := []
    randomIndices := if rp = .RANDOM then List.range n else [] }

/-- `Cache::getIndex`: `(address / blockSize) % numBlocks`. -/
def Cache.getIndex (c : Cache) (address : Nat) : Nat :=
  (address / c.blockSize) % c.numBlocks

/-- `lruMap[tag] = t` (`operator[]`: update the entry if the key is present,
otherwise append a fresh entry). -/
def lruInsert (m : List (Int × Int)) (tag t : Int) : List (Int × Int) :=
  match m with
  | [] => [(tag, t)]
  | (a, b) :: rest => if a = tag then (a, t) :: rest else (a, b) :: lruInsert rest tag t

/-- `lruMap.erase(tag)`: drop the entry with the given key (keys are unique). -/
def lruErase (m : List (Int × Int)) (tag : Int) : List (Int × Int) :=
  match m with
  | [] => []
  | (a, b) :: rest => if a = tag then rest else (a, b) :: lruErase rest tag

/-- The LRU victim scan: `lruTag = -1; oldestTime = time(nullptr);` then for
each map entry, if its stamp is strictly older than the best so far, it
becomes the new candidate.  Returns the final `(lruTag, oldestTime)`. -/
def lruScan (m : List (Int × Int)) (lruTag oldest : Int) : Int × Int :=
  match m with
  | [] => (lruTag, oldest)
  | (a, b) :: rest => if b < oldest then lruScan rest a b else lruScan rest lruTag oldest

/-- The LRU full-path block scan: first index `i` with `blocks[i].tag == lruTag`
(the `valid` bit is not consulted, exactly as in the source). -/
def findTagIdx (blocks : List CacheBlock) (tag : Int) : Option Nat :=
  match blocks with
  | [] => none
  | b :: rest => if b.tag = tag then some 0 else (findTagIdx rest tag).map (· + 1)

/-- The RANDOM free-slot scan: walk the (shuffled) index list and install the
tag in the first non-valid block, if any. -/
def randScan (blocks : List CacheBlock) (idxs : List Nat) (tag : Int) :
    Option (List CacheBlock) :=
  match idxs with
  | [] => none
  | i :: rest =>
    if (blocks.getD i default).valid then randScan blocks rest tag
    else some (blocks.set i ⟨tag, true⟩)

/-- `Cache::replace(int index, int tag)`, the three-policy switch.
FIFO full path: the victim is the queue front `oldIndex`, the tag is written
to `blocks[oldIndex]`, but the slot pushed at the back is `index`.
LRU full path: scan for the minimal stamp, erase it from the map, then look
for a block holding that tag; if none is found the function returns with the
map entry erased and no block written.
RANDOM: scan the shuffled indices for a free block, else evict a random slot. -/
def Cache.replace (c : Cache) (o : Oracle) (index : Nat) (tag : Int) : Cache :=
  match c.policy with
  | .FIFO =>
    if c.fifoQueue.length = c.numBlocks then
      let oldIndex := c.fifoQueue.headD 0
      { c with blocks := c.blocks.set oldIndex ⟨tag, true⟩
               fifoQueue := c.fifoQueue.tail ++ [index] }
    else
      { c with blocks := c.blocks.set index ⟨tag, true⟩
               fifoQueue := c.fifoQueue ++ [index] }
  | .LRU =>
    if c.lruMap.length = c.numBlocks then
      let p := lruScan c.lruMap (-1) o.t
      let m := lruErase c.lruMap p.1
      match findTagIdx c.blocks p.1 with
      | some i =>
        { c with blocks := c.blocks.set i ⟨tag, true⟩
                 lruMap := lruInsert m tag o.t }
      | none => { c with lruMap := m }
    else
      { c with blocks := c.blocks.set index ⟨tag, true⟩
               lruMap := lruInsert c.lruMap tag o.t }
  | .RANDOM =>
    match randScan c.blocks (o.perm.take c.numBlocks) tag with
    | some bs => { c with blocks := bs, randomIndices := o.perm }
    | none =>
      { c with blocks := c.blocks.set (o.rnd % c.numBlocks) ⟨tag, true⟩
               randomIndices := o.perm }

/-- `Cache::access(int address)`: returns `accessTime` on a hit (refreshing
the LRU stamp) and `-1` on a miss (after running `replace`). -/
def Cache.access (c : Cache) (o : Oracle) (address : Nat) : Int × Cache :=
  let index := c.getIndex address
  let tag : Int := (address / c.blockSize : Nat)
  let b := c.blocks.getD index default
  if b.valid = true ∧ b.tag = tag then
    if c.policy = .LRU then
      (c.accessTime, { c with lruMap := lruInsert c.lruMap tag o.t })
    else
      (c.accessTime, c)
  else
    (-1, c.replace o index tag)

/-- Run a cache over an address list with a fixed oracle, keeping only the
final state. -/
def runCache (c : Cache) (o : Oracle) (addresses : List Nat) : Cache :=
  addresses.foldl (fun c a => (c.access o a).2) c

/-- Run a cache over a list of `(clock sample, address)` pairs, collecting
the per-access return values and the final state. -/
def runCacheClocked : Cache → List (Int × Nat) → List Int × Cache
  | c, [] => ([], c)
  | c, (t, a) :: rest =>
    let p := c.access ⟨t, [], 0⟩ a
    let q := runCacheClocked p.2 rest
    (p.1 :: q.1, q.2)

/-- The `TLB` class state.  The source duplicates the whole `Cache` logic with
`numBlocks = size`, `getIndex(page) = page % numBlocks`, and the page number
used directly as the tag. -/
structure TLB where
  size : Nat
  numBlocks : Nat
  accessTime : Int
  policy : ReplacementPolicy
  blocks : List CacheBlock
  fifoQueue : List Nat
  lruMap : List (Int × Int)
  randomIndices : List Nat
deriving DecidableEq, Repr

/-- `TLB::TLB(int s, int at, ReplacementPolicy rp)`: `numBlocks = s`. -/
def mkTLB (s : Nat) (t : Int) (rp : ReplacementPolicy) : TLB :=
  { size := s
    numBlocks := s
    accessTime := t
    policy := rp
    blocks := List.replicate s ⟨-1, false⟩
    fifoQueue := []
    lruMap := []
    randomIndices := if rp = .RANDOM then List.range s else [] }

/-- `TLB::getIndex`: `page % numBlocks`. -/
def TLB.getIndex (c : TLB) (page : Nat) : Nat :=
  page % c.numBlocks

/-- `TLB::replace(int index, int page)` — same three-policy switch as
`Cache::replace`, with the page as tag. -/
def TLB.replace (c : TLB) (o : Oracle) (index : Nat) (tag : Int) : TLB :=
  match c.policy with
  | .FIFO =>
    if c.fifoQueue.length = c.numBlocks then
      let oldIndex := c.fifoQueue.headD 0
      { c with blocks := c.blocks.set oldIndex ⟨tag, true⟩
               fifoQueue := c.fifoQueue.tail ++ [index] }
    else
      { c with blocks := c.blocks.set index ⟨tag, true⟩
               fifoQueue := c.fifoQueue ++ [index] }
  | .LRU =>
    if c.lruMap.length = c.numBlocks then
      let p := lruScan c.lruMap (-1) o.t
      let m := lruErase c.lruMap p.1
      match findTagIdx c.blocks p.1 with
      | some i =>
        { c with blocks := c.blocks.set i ⟨tag, true⟩
                 lruMap := lruInsert m tag o.t }
      | none => { c with lruMap := m }
    else
      { c with blocks := c.blocks.set index ⟨tag, true⟩
               lruMap := lruInsert c.lruMap tag o.t }
  | .RANDOM =>
    match randScan c.blocks (o.perm.take c.numBlocks) tag with
    | some bs => { c with blocks := bs, randomIndices := o.perm }
    | none =>
      { c with blocks := c.blocks.set (o.rnd % c.numBlocks) ⟨tag, true⟩
               randomIndices := o.perm }

/-- `TLB::access(int page)`. -/
def TLB.access (c : TLB) (o : Oracle) (page : Nat) : Int × TLB :=
  let index := c.getIndex page
  let tag : Int := (page : Nat)
  let b := c.blocks.getD index default
  if b.valid = true ∧ b.tag = tag then
    if c.policy = .LRU then
      (c.accessTime, { c with lruMap := lruInsert c.lruMap tag o.t })
    else
      (c.accessTime, c)
  else
    (-1, c.replace o index tag)

/-- `PerformanceAnalyzer` state: overall counters plus the per-level
`cacheHits` / `cacheMisses` vectors (sized `numCaches` at construction). -/
structure PerformanceAnalyzer where
  totalAccesses : Nat
  hits : Nat
  misses : Nat
  cacheHits : List Nat
  cacheMisses : List Nat
deriving DecidableEq, Repr

/-- `PerformanceAnalyzer::PerformanceAnalyzer(int numCaches)`. -/
def mkAnalyzer (numCaches : Nat) : PerformanceAnalyzer :=
  { totalAccesses := 0
    hits := 0
    misses := 0
    cacheHits := List.replicate numCaches 0
    cacheMisses := List.replicate numCaches 0 }

/-- Net effect of the hit branch of `logAccess` on `cacheHits`:
`cacheHits[cacheLevel]++` followed by `cacheHits[i]++` for every
`i > cacheLevel`, i.e. every entry at index `>= k` is incremented. -/
def bumpFrom : List Nat → Nat → List Nat
  | [], _ => []
  | x :: rest, 0 => (x + 1) :: bumpFrom rest 0
  | x :: rest, k + 1 => x :: bumpFrom rest k

/-- `PerformanceAnalyzer::logAccess(bool hit, int cacheLevel)`. -/
def PerformanceAnalyzer.logAccess (pa : PerformanceAnalyzer) (hit : Bool)
    (cacheLevel : Nat) : PerformanceAnalyzer :=
  if hit then
    { pa with totalAccesses := pa.totalAccesses + 1
              hits := pa.hits + 1
              cacheHits :=
                if cacheLevel < pa.cacheHits.length then bumpFrom pa.cacheHits cacheLevel
                else pa.cacheHits }
  else
    { pa with totalAccesses := pa.totalAccesses + 1
              misses := pa.misses + 1
              cacheMisses :=
                if cacheLevel < pa.cacheMisses.length then
                  pa.cacheMisses.set cacheLevel (pa.cacheMisses.getD cacheLevel 0 + 1)
                else pa.cacheMisses }

/-- The rate values printed by `PerformanceAnalyzer::report`.  The source
divides by `totalAccesses` unconditionally in IEEE doubles; when
`totalAccesses = 0` the quotient is `0.0/0` = NaN, modelled here as `none`. -/
def overallHitRate (pa : PerformanceAnalyzer) : Option ℚ :=
  if pa.totalAccesses = 0 then none
  else some ((pa.hits : ℚ) / (pa.totalAccesses : ℚ) * 100)

/-- Overall miss rate printed by `report`; NaN (denominator 0) is `none`. -/
def overallMissRate (pa : PerformanceAnalyzer) : Option ℚ :=
  if pa.totalAccesses = 0 then none
  else some ((pa.misses : ℚ) / (pa.totalAccesses : ℚ) * 100)

/-- Per-level hit rate printed by `report` — the source divides `cacheHits[i]`
by `totalAccesses` (not by the level's own access count). -/
def levelHitRate (pa : PerformanceAnalyzer) (i : Nat) : Option ℚ :=
  if pa.totalAccesses = 0 then none
  else some ((pa.cacheHits.getD i 0 : ℚ) / (pa.totalAccesses : ℚ) * 100)

/-- The indices of `cacheHits` read by the `for (size_t i = 0; i < 3; ++i)`
loop in `report` — hardcoded to three levels regardless of configuration. -/
def reportReadIndices : List Nat := [0, 1, 2]

/-- The hierarchy levels appearing in an outcome trace, with the fixed order
TLB < L1 < L2 < L3 < RAM < DISK. -/
inductive HLevel where
  | tlbL
  | cacheL (i : Nat)
  | ramL
  | diskL
deriving DecidableEq, Repr

/-- Rank realizing the order TLB < L1 < L2 < L3 < RAM < DISK. -/
def HLevel.rank : HLevel → Nat
  | .tlbL => 0
  | .cacheL i => i + 1
  | .ramL => 4
  | .diskL => 5

/-- One entry of the outcome sequence of `simulateAccess`. -/
structure Outcome where
  lvl : HLevel
  hit : Bool
deriving DecidableEq, Repr

/-- The integer level value the source passes to `logAccess`:
TLB = 0, cache `i` = `i + 1`, RAM = `caches.size()`, disk = `caches.size() + 1`.
Note that RAM collides with the last cache level. -/
def levelIndex (nc : Nat) : HLevel → Nat
  | .tlbL => 0
  | .cacheL i => i + 1
  | .ramL => nc
  | .diskL => nc + 1

/-- Ranks of the levels of a trace, in trace order. -/
def rankList (tr : List Outcome) : List Nat :=
  tr.map fun u => u.lvl.rank

/-- The trace's levels are non-decreasing in the fixed order. -/
def levelMonotone (tr : List Outcome) : Prop :=
  List.Chain' (· ≤ ·) (rankList tr)

/-- Kernel-reducible decidability of non-decreasing `Nat` chains. -/
def decChainLe : (l : List Nat) → Decidable (List.Chain' (· ≤ ·) l)
  | [] => isTrue List.chain'_nil
  | [a] => isTrue (List.chain'_singleton a)
  | a :: b :: l =>
    have : Decidable (List.Chain' (· ≤ ·) (b :: l)) := decChainLe (b :: l)
    decidable_of_iff (a ≤ b ∧ List.Chain' (· ≤ ·) (b :: l)) List.chain'_cons.symm

instance (tr : List Outcome) : Decidable (levelMonotone tr) :=
  decChainLe (rankList tr)

/-- `MemoryHierarchy` state. -/
structure MemoryHierarchy where
  caches : List Cache
  tlb : TLB
  ram : Cache
  diskAccessTime : Int
  analyzer : PerformanceAnalyzer
deriving Repr

/-- The `MemoryHierarchy` constructor: build each cache from the parallel
configuration vectors, RAM, the TLB, and an analyzer sized
`cacheSizes.size() + 1`. -/
def mkMemoryHierarchy (cacheSizes blockSizes : List Nat) (accessTimes : List Int)
    (policies : List ReplacementPolicy) (ramSize ramBlockSize : Nat) (ramAt : Int)
    (ramPolicy : ReplacementPolicy) (diskAt : Int) (tlbSize : Nat) (tlbAt : Int)
    (tlbPolicy : ReplacementPolicy) : MemoryHierarchy :=
  { caches :=
      (List.range cacheSizes.length).map fun i =>
        mkCache (cacheSizes.getD i 0) (blockSizes.getD i 1) (accessTimes.getD i 0)
          (policies.getD i .FIFO)
    tlb := mkTLB tlbSize tlbAt tlbPolicy
    ram := mkCache ramSize ramBlockSize ramAt ramPolicy
    diskAccessTime := diskAt
    analyzer := mkAnalyzer (cacheSizes.length + 1) }

/-- Probe the cache list in order starting at level `i`, stopping at the first
hit (the source's early `return`).  Returns the updated caches, the outcomes
appended by the loop, and whether a hit stopped the walk. -/
def probeCaches (o : Oracle) (address : Nat) :
    List Cache → Nat → List Cache × List Outcome × Bool
  | [], _ => ([], [], false)
  | c :: rest, i =>
    let p := c.access o address
    if p.1 ≠ -1 then
      (p.2 :: rest, [⟨.cacheL i, true⟩], true)
    else
      let q := probeCaches o address rest (i + 1)
      (p.2 :: q.1, ⟨.cacheL i, false⟩ :: q.2.1, q.2.2)

/-- Pack a result of `simulateAccess`: store the new component states and fold
the trace into the analyzer via `logAccess` (in trace order, which is the
order of the `logAccess` calls in the source). -/
def MemoryHierarchy.finishTrace (mh : MemoryHierarchy) (cs : List Cache) (tlb : TLB)
    (ram : Cache) (trace : List Outcome) : List Outcome × MemoryHierarchy :=
  (trace,
    { caches := cs
      tlb := tlb
      ram := ram
      diskAccessTime := mh.diskAccessTime
      analyzer :=
        trace.foldl (fun pa u => pa.logAccess u.hit (levelIndex cs.length u.lvl))
          mh.analyzer })

/-- `MemoryHierarchy::simulateAccess(int address)`, producing the ordered
outcome trace and the updated hierarchy.  The branch structure mirrors the
source: TLB hit → caches → RAM → disk (logged miss then hit); TLB miss →
translation RAM probe, then on RAM hit caches → RAM again → disk, and on RAM
miss a disk access (logged as a single miss) before the caches → RAM again →
disk path. -/
def MemoryHierarchy.simulateAccess (mh : MemoryHierarchy) (o : Oracle)
    (address : Nat) : List Outcome × MemoryHierarchy :=
  let page := address / mh.tlb.size
  let tp := mh.tlb.access o page
  if tp.1 ≠ -1 then
    let pc := probeCaches o address mh.caches 0
    if pc.2.2 then
      mh.finishTrace pc.1 tp.2 mh.ram (⟨.tlbL, true⟩ :: pc.2.1)
    else
      let rp := mh.ram.access o address
      if rp.1 ≠ -1 then
        mh.finishTrace pc.1 tp.2 rp.2 ((⟨.tlbL, true⟩ :: pc.2.1) ++ [⟨.ramL, true⟩])
      else
        mh.finishTrace pc.1 tp.2 rp.2
          ((⟨.tlbL, true⟩ :: pc.2.1) ++
            [⟨.ramL, false⟩, ⟨.diskL, false⟩, ⟨.diskL, true⟩])
  else
    let rp := mh.ram.access o address
    if rp.1 ≠ -1 then
      let pc := probeCaches o address mh.caches 0
      if pc.2.2 then
        mh.finishTrace pc.1 tp.2 rp.2 (⟨.tlbL, false⟩ :: ⟨.ramL, true⟩ :: pc.2.1)
      else
        let rp2 := rp.2.access o address
        if rp2.1 ≠ -1 then
          mh.finishTrace pc.1 tp.2 rp2.2
            ((⟨.tlbL, false⟩ :: ⟨.ramL, true⟩ :: pc.2.1) ++ [⟨.ramL, true⟩])
        else
          mh.finishTrace pc.1 tp.2 rp2.2
            ((⟨.tlbL, false⟩ :: ⟨.ramL, true⟩ :: pc.2.1) ++
              [⟨.ramL, false⟩, ⟨.diskL, false⟩, ⟨.diskL, true⟩])
    else
      let pc := probeCaches o address mh.caches 0
      if pc.2.2 then
        mh.finishTrace pc.1 tp.2 rp.2
          (⟨.tlbL, false⟩ :: ⟨.ramL, false⟩ :: ⟨.diskL, false⟩ :: pc.2.1)
      else
        let rp2 := rp.2.access o address
        if rp2.1 ≠ -1 then
          mh.finishTrace pc.1 tp.2 rp2.2
            ((⟨.tlbL, false⟩ :: ⟨.ramL, false⟩ :: ⟨.diskL, false⟩ :: pc.2.1) ++
              [⟨.ramL, true⟩])
        else
          mh.finishTrace pc.1 tp.2 rp2.2
            ((⟨.tlbL, false⟩ :: ⟨.ramL, false⟩ :: ⟨.diskL, false⟩ :: pc.2.1) ++
              [⟨.ramL, false⟩, ⟨.diskL, false⟩, ⟨.diskL, true⟩])

/-- `runSimulation`'s core loop: fold `simulateAccess` over the address
stream. -/
def MemoryHierarchy.runSim (mh : MemoryHierarchy) (o : Oracle)
    (addresses : List Nat) : MemoryHierarchy :=
  addresses.foldl (fun m a => (m.simulateAccess o a).2) mh

/-- Every occupied block sits at its tag's home slot (`tag % numBlocks`).
This placement discipline is what the direct-mapped lookup of `access`
assumes; the replacement paths do not maintain it. -/
def homeConsistent (c : Cache) : Prop :=
  ∀ i, i < c.blocks.length → (c.blocks.getD i default).valid = true →
    (c.blocks.getD i default).tag % (c.numBlocks : Int) = (i : Int)

instance (c : Cache) : Decidable (homeConsistent c) := by
  unfold homeConsistent
  infer_instance

/-! ### Concrete runs used by the claims -/

/-- A 3-block FIFO cache probed with tags `[0,3,6,1,4,1,1]` (blockSize 1). -/
def c1Run : Cache :=
  runCache (mkCache 3 1 0 .FIFO) ⟨0, [], 0⟩ [0, 3, 6, 1, 4, 1, 1]

/-- A 2-block FIFO cache probed with tags `[0,1]`: both installs land at the
home slot, so the state is home-consistent. -/
def c1WarmRun : Cache :=
  runCache (mkCache 2 1 1 .FIFO) ⟨0, [], 0⟩ [0, 1]

/-- One-cache FIFO hierarchy (L1 2x1, RAM 4x1, TLB 4). -/
def c2Mh : MemoryHierarchy :=
  mkMemoryHierarchy [2] [1] [1] [.FIFO] 4 1 5 .FIFO 10 4 1 .FIFO

/-- Oracle with clock 0; FIFO runs never consult it. -/
def fifoOracle : Oracle := ⟨0, [], 0⟩

/-- A hierarchy whose TLB already holds page 0, so a probe of address 0 hits
the TLB. -/
def c2MhWarm : MemoryHierarchy :=
  { caches := [mkCache 2 1 1 .FIFO]
    tlb :=
      { size := 4, numBlocks := 4, accessTime := 1, policy := .FIFO,
        blocks := [⟨0, true⟩, ⟨-1, false⟩, ⟨-1, false⟩, ⟨-1, false⟩],
        fifoQueue := [0], lruMap := [], randomIndices := [] }
    ram := mkCache 4 1 1 .FIFO
    diskAccessTime := 1
    analyzer := mkAnalyzer 2 }

/-- A capacity-2 LRU cache probed with tags `[0,2,1]` at clock 1,2,3. -/
def c3Run : List Int × Cache :=
  runCacheClocked (mkCache 2 1 1 .LRU) [(1, 0), (2, 2), (3, 1)]

/-- The capacity-2 LRU scenario `[0,1,0,2]` with the wall clock advancing at
every access. -/
def c5RunTicking : List Int × Cache :=
  runCacheClocked (mkCache 2 1 1 .LRU) [(1, 0), (2, 1), (3, 0), (4, 2)]

/-- The same scenario with all four accesses inside one wall-clock second. -/
def c5RunStalled : List Int × Cache :=
  runCacheClocked (mkCache 2 1 1 .LRU) [(1, 0), (1, 1), (1, 0), (1, 2)]

/-- Two-cache FIFO hierarchy (L1 2x1, L2 4x1, RAM 8x1, TLB 4). -/
def c9Mh0 : MemoryHierarchy :=
  mkMemoryHierarchy [2, 4] [1, 1] [1, 2] [.FIFO, .FIFO] 8 1 5 .FIFO 10 4 1 .FIFO

/-- State of `c9Mh0` after one access to address 0. -/
def c9Mh1 : MemoryHierarchy := (c9Mh0.simulateAccess fifoOracle 0).2

/-! ### Claim theorems -/

/-- Claim C1, counterexample: the claim says no tag is ever resident in more
than one occupied block.  On a 3-block FIFO cache, after the probe sequence
`[0,3,6,1,4,1,1]` tag 1 is resident in block 0 and block 1 simultaneously
(the FIFO full path writes the tag at the dequeued slot but enqueues the home
index, so a tag can be installed away from its home slot and later installed
a second time). -/
theorem C1_dup_residency_cex :
    (c1Run.blocks.getD 0 default).valid = true ∧
    (c1Run.blocks.getD 1 default).valid = true ∧
    (c1Run.blocks.getD 0 default).tag = 1 ∧
    (c1Run.blocks.getD 1 default).tag = 1 := by decide

/-- Claim C1, amended: no-duplicate-residency does hold for every
home-consistent state (each occupied block at its tag's home slot
`tag % numBlocks`): two distinct blocks can then never hold the same tag.
The replacement paths can break home-consistency, after which a tag can
become resident in two blocks at once (see the counterexample). -/
theorem C1_amended_home_noDup (c : Cache) (h : homeConsistent c) (i j : Nat)
    (hi : i < c.blocks.length) (hj : j < c.blocks.length) (hne : i ≠ j)
    (hvi : (c.blocks.getD i default).valid = true)
    (hvj : (c.blocks.getD j default).valid = true) :
    (c.blocks.getD i default).tag ≠ (c.blocks.getD j default).tag := by
  intro heq
  have h1 := h i hi hvi
  have h2 := h j hj hvj
  rw [heq] at h1
  rw [h1] at h2
  exact hne (by exact_mod_cast h2)

/-- Witness for the amended C1 theorem at the home-consistent state reached
by probing `[0,1]` on an empty 2-block FIFO cache. -/
theorem C1_amended_home_noDup_witness :
    (c1WarmRun.blocks.getD 0 default).tag ≠ (c1WarmRun.blocks.getD 1 default).tag :=
  C1_amended_home_noDup c1WarmRun (by decide) 0 1 (by decide) (by decide)
    (by decide) (by decide) (by decide)

/-- Claim C2, counterexample: the claim says the levels of every outcome
trace are non-decreasing in the order TLB < L1 < L2 < L3 < RAM < DISK.  On
the first access of address 0 in a one-cache hierarchy the TLB misses, and
the trace is TLB, RAM, DISK, L1, RAM — the RAM and DISK outcomes of the
translation path precede the L1 outcome. -/
theorem C2_level_order_cex :
    ¬ levelMonotone (c2Mh.simulateAccess fifoOracle 0).1 := by decide

/-- The outcomes appended by the cache loop have strictly increasing
consecutive cache levels starting at `i`, hence non-decreasing ranks, all of
them between `i + 1` and `i + cs.length`. -/
theorem probeCaches_rank_chain (o : Oracle) (a : Nat) :
    ∀ (cs : List Cache) (i : Nat),
      List.Chain' (· ≤ ·) (rankList (probeCaches o a cs i).2.1) ∧
      ∀ r ∈ rankList (probeCaches o a cs i).2.1, i + 1 ≤ r ∧ r ≤ i + cs.length := by
  intro cs
  induction cs with
  | nil =>
    intro i
    simp [probeCaches, rankList]
  | cons c rest ih =>
    intro i
    obtain ⟨ihc, ihb⟩ := ih (i + 1)
    by_cases h : (c.access o a).1 ≠ -1
    · simp only [probeCaches, if_pos h, rankList, List.map_cons, List.map_nil]
      refine ⟨List.chain'_singleton _, ?_⟩
      intro r hr
      simp only [List.mem_singleton] at hr
      subst hr
      simp only [HLevel.rank, List.length_cons]
      omega
    · simp only [probeCaches, if_neg h, rankList, List.map_cons]
      constructor
      · rw [List.chain'_cons']
        refine ⟨?_, ihc⟩
        intro y hy
        have hym : y ∈ rankList (probeCaches o a rest (i + 1)).2.1 :=
          List.mem_of_mem_head? hy
        have h1 := (ihb y hym).1
        simp only [HLevel.rank]
        omega
      · intro r hr
        rcases List.mem_cons.mp hr with hr | hr
        · subst hr
          simp only [HLevel.rank, List.length_cons]
          omega
        · have h2 := ihb r hr
          simp only [List.length_cons]
          omega

/-- Claim C2, amended: the level-order invariant holds on the TLB-hit path —
whenever the TLB probe of an address hits, the recorded levels are
non-decreasing in the order TLB < L1 < L2 < L3 < RAM < DISK.  On the TLB-miss
path the translation RAM probe (and, when it misses, a DISK outcome) is
recorded before the cache outcomes, so the order fails there (see the
counterexample). -/
theorem C2_amended_tlb_hit_monotone (mh : MemoryHierarchy) (o : Oracle) (a : Nat)
    (hlen : mh.caches.length ≤ 3)
    (htlb : (mh.tlb.access o (a / mh.tlb.size)).1 ≠ -1) :
    levelMonotone (mh.simulateAccess o a).1 := by
  have hchain := probeCaches_rank_chain o a mh.caches 0
  obtain ⟨hc, hb⟩ := hchain
  unfold MemoryHierarchy.simulateAccess
  rw [if_pos htlb]
  have hglue : ∀ (tail : List Outcome),
      List.Chain' (· ≤ ·) (rankList tail) →
      (∀ y ∈ (rankList tail).head?, 4 ≤ y) →
      levelMonotone ((⟨.tlbL, true⟩ :: (probeCaches o a mh.caches 0).2.1) ++ tail) := by
    intro tail htail hhead
    show List.Chain' (· ≤ ·)
      (rankList ((⟨.tlbL, true⟩ :: (probeCaches o a mh.caches 0).2.1) ++ tail))
    have hsplit :
        rankList ((⟨.tlbL, true⟩ :: (probeCaches o a mh.caches 0).2.1) ++ tail) =
          (HLevel.rank .tlbL :: rankList (probeCaches o a mh.caches 0).2.1) ++
            rankList tail := by
      simp [rankList]
    rw [hsplit, List.chain'_append]
    refine ⟨?_, htail, ?_⟩
    · rw [List.chain'_cons']
      exact ⟨fun y _ => Nat.zero_le y, hc⟩
    · intro x hx y hy
      have hxm : x ∈ HLevel.rank .tlbL :: rankList (probeCaches o a mh.caches 0).2.1 := by
        rcases List.mem_getLast?_eq_getLast hx with ⟨hne, hxe⟩
        exact hxe ▸ List.getLast_mem hne
      have h4 : 4 ≤ y := hhead y hy
      rcases List.mem_cons.mp hxm with hx0 | hxm'
      · subst hx0
        exact le_trans (Nat.zero_le 4) h4
      · have h2 := (hb x hxm').2
        omega
  by_cases hpc : (probeCaches o a mh.caches 0).2.2
  · rw [if_pos hpc]
    have := hglue [] List.chain'_nil (by simp [rankList])
    simpa [MemoryHierarchy.finishTrace] using this
  · rw [if_neg hpc]
    by_cases hram : (mh.ram.access o a).1 ≠ -1
    · rw [if_pos hram]
      have := hglue [⟨.ramL, true⟩] (List.chain'_singleton _)
        (by simp [rankList, HLevel.rank])
      simpa [MemoryHierarchy.finishTrace] using this
    · rw [if_neg hram]
      have hch3 : List.Chain' (· ≤ ·)
          (rankList [⟨.ramL, false⟩, ⟨.diskL, false⟩, ⟨.diskL, true⟩]) := by
        simp [rankList, HLevel.rank]
      have := hglue [⟨.ramL, false⟩, ⟨.diskL, false⟩, ⟨.diskL, true⟩] hch3
        (by simp [rankList, HLevel.rank])
      simpa [MemoryHierarchy.finishTrace] using this

/-- Witness for the amended C2 theorem: in `c2MhWarm` the TLB already holds
page 0, so the probe of address 0 hits the TLB and the recorded level
sequence is non-decreasing. -/
theorem C2_amended_tlb_hit_monotone_witness :
    levelMonotone (c2MhWarm.simulateAccess fifoOracle 0).1 :=
  C2_amended_tlb_hit_monotone c2MhWarm fifoOracle 0 (by decide) (by decide)

/-- Claim C3: on a miss the probed tag is claimed to be installed into some
block.  Code bug: on a capacity-2 LRU cache probed with tags `[0,2,1]` under
a strictly increasing clock, the third probe misses and `replace` returns
without installing tag 1 anywhere — the LRU victim scan picks tag 0, which is
still in the map but no longer in any block (it was overwritten by the
non-full path), so the block scan fails and nothing is written. -/
theorem C3_lru_miss_no_install :
    c3Run.1 = [-1, -1, -1] ∧
    (c3Run.2.blocks.any fun b => b.valid && b.tag == 1) = false := by decide

/-- Claim C4, counterexample: the claim says the run ends with resident tags
exactly `{0,2}` (tag 1 evicted).  When all four accesses fall inside one
wall-clock second — a realizable execution, since the source stamps recency
with `std::time(nullptr)` — the outcomes are still miss, miss, hit, miss, but
the fourth probe's LRU scan finds no entry with a stamp strictly below the
current time, `lruTag` stays `-1`, nothing is evicted or installed, and the
resident tags end as `{0,1}`: tag 2 is not resident at all. -/
theorem C4_lru_scenario_cex :
    c5RunStalled.1 = [-1, -1, 1, -1] ∧
    c5RunStalled.2.blocks = [⟨0, true⟩, ⟨1, true⟩] ∧
    (c5RunStalled.2.blocks.any fun b => b.valid && b.tag == 2) = false := by
  decide

/-- Claim C4, amended: provided the wall clock strictly advances between
consecutive accesses, a capacity-2, blockSize-1, LRU cache probed with
addresses `[0,1,0,2]` produces outcomes miss, miss, hit, miss (`-1,-1,1,-1`
with access time 1), and afterwards the resident tags are exactly 0 and 2
(tag 1 evicted).  The wall-clock samples of the four accesses are arbitrary
values `t1 < t2 < t3 < t4`; without the clock condition the eviction does not
happen (see the counterexample). -/
theorem C4_amended_lru_ticking (t1 t2 t3 t4 : Int)
    (_h12 : t1 < t2) (h23 : t2 < t3) (h34 : t3 < t4) :
    (runCacheClocked (mkCache 2 1 1 .LRU) [(t1, 0), (t2, 1), (t3, 0), (t4, 2)]).1 =
      [-1, -1, 1, -1] ∧
    (runCacheClocked (mkCache 2 1 1 .LRU) [(t1, 0), (t2, 1), (t3, 0), (t4, 2)]).2.blocks =
      [⟨0, true⟩, ⟨2, true⟩] := by
  have s1 : (mkCache 2 1 1 .LRU).access ⟨t1, [], 0⟩ 0 =
      (-1, { size := 2, blockSize := 1, numBlocks := 2, policy := .LRU,
             accessTime := 1, blocks := [⟨0, true⟩, ⟨-1, false⟩], fifoQueue := [],
             lruMap := [(0, t1)], randomIndices := [] }) := rfl
  have s2 : Cache.access
      { size := 2, blockSize := 1, numBlocks := 2, policy := .LRU,
        accessTime := 1, blocks := [⟨0, true⟩, ⟨-1, false⟩], fifoQueue := [],
        lruMap := [(0, t1)], randomIndices := [] } ⟨t2, [], 0⟩ 1 =
      (-1, { size := 2, blockSize := 1, numBlocks := 2, policy := .LRU,
             accessTime := 1, blocks := [⟨0, true⟩, ⟨1, true⟩], fifoQueue := [],
             lruMap := [(0, t1), (1, t2)], randomIndices := [] }) := by
    simp only [Cache.access, Cache.getIndex, Cache.replace, lruInsert]
    norm_num
  have s3 : Cache.access
      { size := 2, blockSize := 1, numBlocks := 2, policy := .LRU,
        accessTime := 1, blocks := [⟨0, true⟩, ⟨1, true⟩], fifoQueue := [],
        lruMap := [(0, t1), (1, t2)], randomIndices := [] } ⟨t3, [], 0⟩ 0 =
      (1, { size := 2, blockSize := 1, numBlocks := 2, policy := .LRU,
            accessTime := 1, blocks := [⟨0, true⟩, ⟨1, true⟩], fifoQueue := [],
            lruMap := [(0, t3), (1, t2)], randomIndices := [] }) := by
    simp only [Cache.access, Cache.getIndex, Cache.replace, lruInsert]
    norm_num
  have hscan : lruScan [(0, t3), (1, t2)] (-1) t4 = (1, t2) := by
    simp only [lruScan]
    rw [if_pos h34, if_pos h23]
  have s4 : Cache.access
      { size := 2, blockSize := 1, numBlocks := 2, policy := .LRU,
        accessTime := 1, blocks := [⟨0, true⟩, ⟨1, true⟩], fifoQueue := [],
        lruMap := [(0, t3), (1, t2)], randomIndices := [] } ⟨t4, [], 0⟩ 2 =
      (-1, { size := 2, blockSize := 1, numBlocks := 2, policy := .LRU,
             accessTime := 1, blocks := [⟨0, true⟩, ⟨2, true⟩], fifoQueue := [],
             lruMap := [(0, t3), (2, t4)], randomIndices := [] }) := by
    simp only [Cache.access, Cache.getIndex, Cache.replace, hscan, lruErase,
      findTagIdx, lruInsert]
    norm_num
  simp [runCacheClocked, s1, s2, s3, s4]

/-- Witness for the amended C4 theorem at the concrete clock samples
`1 < 2 < 3 < 4`. -/
theorem C4_amended_lru_ticking_witness :
    (runCacheClocked (mkCache 2 1 1 .LRU) [(1, 0), (2, 1), (3, 0), (4, 2)]).1 =
      [-1, -1, 1, -1] ∧
    (runCacheClocked (mkCache 2 1 1 .LRU) [(1, 0), (2, 1), (3, 0), (4, 2)]).2.blocks =
      [⟨0, true⟩, ⟨2, true⟩] :=
  C4_amended_lru_ticking 1 2 3 4 (by decide) (by decide) (by decide)

/-- Claim C5: the claim says LRU recency stamps form a strictly increasing
logical counter independent of wall-clock time, making eviction decisions
identical across runs.  Code bug: the source stamps with `std::time(nullptr)`.
Running the same configuration and address stream `[0,1,0,2]` with the clock
advancing each access versus all accesses inside one second produces
different final block contents (tag 1 evicted versus no eviction at all). -/
theorem C5_clock_dependent_eviction :
    c5RunTicking.2.blocks ≠ c5RunStalled.2.blocks := by decide

/-- Claim C6, counterexample: the claim says a zero-length stream reports
all rates as 0.  With `totalAccesses = 0` the source divides `0/0` in IEEE
doubles, printing NaN (embedded as `none`), not 0. -/
theorem C6_zero_stream_cex :
    ((c2Mh.runSim fifoOracle []).analyzer.totalAccesses = 0) ∧
    overallHitRate (c2Mh.runSim fifoOracle []).analyzer ≠ some 0 := by decide

/-- Claim C6, amended: for any configuration and a zero-length address
stream, the report shows `totalAccesses = 0` and no abort occurs, but every
rate is an undefined `0/0` quotient (`none`), not 0. -/
theorem C6_amended_empty_report (cacheSizes blockSizes : List Nat)
    (accessTimes : List Int) (policies : List ReplacementPolicy)
    (ramSize ramBlockSize : Nat) (ramAt : Int) (ramPolicy : ReplacementPolicy)
    (diskAt : Int) (tlbSize : Nat) (tlbAt : Int) (tlbPolicy : ReplacementPolicy)
    (o : Oracle) (i : Nat) :
    ((mkMemoryHierarchy cacheSizes blockSizes accessTimes policies ramSize
        ramBlockSize ramAt ramPolicy diskAt tlbSize tlbAt
        tlbPolicy).runSim o []).analyzer.totalAccesses = 0 ∧
    overallHitRate ((mkMemoryHierarchy cacheSizes blockSizes accessTimes policies
        ramSize ramBlockSize ramAt ramPolicy diskAt tlbSize tlbAt
        tlbPolicy).runSim o []).analyzer = none ∧
    overallMissRate ((mkMemoryHierarchy cacheSizes blockSizes accessTimes policies
        ramSize ramBlockSize ramAt ramPolicy diskAt tlbSize tlbAt
        tlbPolicy).runSim o []).analyzer = none ∧
    levelHitRate ((mkMemoryHierarchy cacheSizes blockSizes accessTimes policies
        ramSize ramBlockSize ramAt ramPolicy diskAt tlbSize tlbAt
        tlbPolicy).runSim o []).analyzer i = none := by
  simp [MemoryHierarchy.runSim, mkMemoryHierarchy, mkAnalyzer, overallHitRate,
    overallMissRate, levelHitRate]

/-- Claim C7, counterexample: the claim says construction with zero capacity
(or capacity < blockSize) fails, so construction never succeeds with zero
blocks.  The constructor performs no validation: `mkCache 0 1` succeeds and
yields a cache with `numBlocks = 0` and an empty block vector. -/
theorem C7_construction_cex :
    (mkCache 0 1 0 .FIFO).numBlocks = 0 ∧ (mkCache 0 1 0 .FIFO).blocks = [] := by
  decide

/-- Claim C7, amended: construction never fails; whenever
`capacity < blockSize` (zero capacity included) the constructed cache has
zero blocks, so a later probe's index computation `(address / blockSize) %
numBlocks` takes a modulus by zero. -/
theorem C7_amended_no_validation (s bs : Nat) (t : Int) (p : ReplacementPolicy)
    (_hbs : 0 < bs) (hlt : s < bs) :
    (mkCache s bs t p).numBlocks = 0 ∧ (mkCache s bs t p).blocks.length = 0 := by
  have h : s / bs = 0 := Nat.div_eq_of_lt hlt
  simp [mkCache, h]

/-- Witness for the amended C7 theorem at `capacity = 0, blockSize = 2`. -/
theorem C7_amended_no_validation_witness :
    (mkCache 0 2 0 .FIFO).numBlocks = 0 ∧ (mkCache 0 2 0 .FIFO).blocks.length = 0 :=
  C7_amended_no_validation 0 2 0 .FIFO (by decide) (by decide)

/-- If some index in the scanned list points at a free block, `randScan`
installs the tag at the first such index and leaves every other block
untouched. -/
theorem randScan_finds (tag : Int) :
    ∀ (idxs : List Nat) (blocks : List CacheBlock),
      (∃ i ∈ idxs, (blocks.getD i default).valid = false) →
      ∃ k ∈ idxs, (blocks.getD k default).valid = false ∧
        randScan blocks idxs tag = some (blocks.set k ⟨tag, true⟩) := by
  intro idxs
  induction idxs with
  | nil =>
    rintro blocks ⟨i, hi, -⟩
    exact absurd hi (List.not_mem_nil i)
  | cons i rest ih =>
    rintro blocks ⟨j, hj, hjf⟩
    cases hv : (blocks.getD i default).valid with
    | true =>
      have hjr : j ∈ rest := by
        rcases List.mem_cons.mp hj with hji | hjr
        · subst hji
          rw [hv] at hjf
          cases hjf
        · exact hjr
      obtain ⟨k, hk, hkf, hs⟩ := ih blocks ⟨j, hjr, hjf⟩
      refine ⟨k, List.mem_cons_of_mem i hk, hkf, ?_⟩
      simp only [randScan]
      rw [if_pos hv]
      exact hs
    | false =>
      refine ⟨i, List.mem_cons_self i rest, hv, ?_⟩
      simp only [randScan]
      rw [if_neg (show ¬(blocks.getD i default).valid = true by
        rw [hv]; exact Bool.false_ne_true)]

/-- Claim C8: under the RANDOM policy, whenever some block is still free,
`replace` installs the new tag into a free slot and evicts nothing — every
other block (in particular every occupied one) is unchanged.  The shuffled
index pool is an arbitrary permutation of `0..numBlocks-1`, as maintained by
the source. -/
theorem C8_random_fills_free (c : Cache) (o : Oracle) (idx : Nat) (tag : Int)
    (hpol : c.policy = .RANDOM)
    (hperm : o.perm.Perm (List.range c.numBlocks))
    (hfree : ∃ j, j < c.numBlocks ∧ (c.blocks.getD j default).valid = false) :
    ∃ k, k < c.numBlocks ∧ (c.blocks.getD k default).valid = false ∧
      (c.replace o idx tag).blocks = c.blocks.set k ⟨tag, true⟩ ∧
      ∀ m, m ≠ k →
        (c.replace o idx tag).blocks.getD m default = c.blocks.getD m default := by
  obtain ⟨j, hj, hjf⟩ := hfree
  have hlenp : o.perm.length = c.numBlocks := by
    simpa using hperm.length_eq
  have htake : o.perm.take c.numBlocks = o.perm := by
    rw [← hlenp]
    exact List.take_length o.perm
  have hjmem : j ∈ o.perm := hperm.mem_iff.mpr (List.mem_range.mpr hj)
  obtain ⟨k, hk, hkf, hs⟩ := randScan_finds tag o.perm c.blocks ⟨j, hjmem, hjf⟩
  have hkn : k < c.numBlocks := List.mem_range.mp (hperm.mem_iff.mp hk)
  have hrepl : (c.replace o idx tag).blocks = c.blocks.set k ⟨tag, true⟩ := by
    unfold Cache.replace
    rw [hpol]
    simp [htake, hs]
  refine ⟨k, hkn, hkf, hrepl, ?_⟩
  intro m hm
  rw [hrepl, List.getD_eq_getElem?_getD, List.getD_eq_getElem?_getD,
    List.getElem?_set_ne (Ne.symm hm)]

/-- Witness for C8: a fresh 2-block RANDOM cache with shuffle result `[0,1]`
admits tag 7 into a free slot without evicting anything. -/
theorem C8_random_fills_free_witness :
    ∃ k, k < (mkCache 2 1 1 .RANDOM).numBlocks ∧
      ((mkCache 2 1 1 .RANDOM).blocks.getD k default).valid = false ∧
      ((mkCache 2 1 1 .RANDOM).replace ⟨0, [0, 1], 0⟩ 0 7).blocks =
        (mkCache 2 1 1 .RANDOM).blocks.set k ⟨7, true⟩ ∧
      ∀ m, m ≠ k →
        ((mkCache 2 1 1 .RANDOM).replace ⟨0, [0, 1], 0⟩ 0 7).blocks.getD m default =
          (mkCache 2 1 1 .RANDOM).blocks.getD m default :=
  C8_random_fills_free (mkCache 2 1 1 .RANDOM) ⟨0, [0, 1], 0⟩ 0 7 (by decide)
    (by decide) ⟨0, by decide, by decide⟩

/-- Claim C9, counterexample: the claim says each probed level contributes
exactly one outcome recorded into exactly that level's counters.  In the
two-cache hierarchy `c9Mh0`, the second access of address 0 probes only the
TLB and L1 (trace `[TLB hit, L1 hit]`), yet `cacheHits` goes from `[0,0,1]`
to `[1,2,3]`: the TLB hit incremented all three counters and the L1 hit two
of them, so counters of unprobed levels changed. -/
theorem C9_per_level_cex :
    (c9Mh1.simulateAccess fifoOracle 0).1 =
      [⟨.tlbL, true⟩, ⟨.cacheL 0, true⟩] ∧
    c9Mh1.analyzer.cacheHits = [0, 0, 1] ∧
    ((c9Mh1.simulateAccess fifoOracle 0).2).analyzer.cacheHits = [1, 2, 3] := by
  decide

/-- The cache loop appends at most one outcome per configured cache level. -/
theorem probeCaches_length_le (o : Oracle) (a : Nat) :
    ∀ (cs : List Cache) (i : Nat),
      (probeCaches o a cs i).2.1.length ≤ cs.length := by
  intro cs
  induction cs with
  | nil =>
    intro i
    simp [probeCaches]
  | cons c rest ih =>
    intro i
    by_cases h : (c.access o a).1 ≠ -1
    · simp [probeCaches, if_pos h]
    · have := ih (i + 1)
      simp only [probeCaches, if_neg h, List.length_cons]
      omega

/-- Incrementing from index `k` adds one to every entry at index `i ≥ k`. -/
theorem bumpFrom_getD (l : List Nat) (k i : Nat) (hk : k ≤ i) (hi : i < l.length) :
    (bumpFrom l k).getD i 0 = l.getD i 0 + 1 := by
  induction l generalizing k i with
  | nil => simp at hi
  | cons x rest ih =>
    cases k with
    | zero =>
      cases i with
      | zero => simp [bumpFrom]
      | succ n =>
        simp only [bumpFrom, List.getD_cons_succ]
        exact ih 0 n (Nat.zero_le n) (by simpa using hi)
    | succ m =>
      cases i with
      | zero => omega
      | succ n =>
        simp only [bumpFrom, List.getD_cons_succ]
        exact ih m n (by omega) (by simpa using hi)

/-- Claim C9, amended: every address access yields a finite outcome trace,
bounded by the number of cache levels plus six (TLB, up to two RAM probes,
and up to three DISK log entries), so the walk always terminates; but counter
recording is not per-level: `logAccess(hit=true, k)` increments the hit
counter of every level `i ≥ k`, not only level `k` (and RAM shares the index
`caches.size()` with the last cache level, disk entries beyond the vector are
dropped from the per-level counters). -/
theorem C9_amended_bounded_and_bump (mh : MemoryHierarchy) (o : Oracle) (a : Nat)
    (pa : PerformanceAnalyzer) (k i : Nat) (hk : k ≤ i)
    (hi : i < pa.cacheHits.length) :
    (mh.simulateAccess o a).1.length ≤ mh.caches.length + 6 ∧
    (pa.logAccess true k).cacheHits.getD i 0 = pa.cacheHits.getD i 0 + 1 := by
  constructor
  · have hlen := probeCaches_length_le o a mh.caches 0
    unfold MemoryHierarchy.simulateAccess
    by_cases h1 : (mh.tlb.access o (a / mh.tlb.size)).1 ≠ -1 <;>
    by_cases h2 : (probeCaches o a mh.caches 0).2.2 = true <;>
    by_cases h3 : (mh.ram.access o a).1 ≠ -1 <;>
    by_cases h4 : ((mh.ram.access o a).2.access o a).1 ≠ -1 <;>
    simp [h1, h2, h3, h4, MemoryHierarchy.finishTrace] <;>
    omega
  · have hklen : k < pa.cacheHits.length := Nat.lt_of_le_of_lt hk hi
    simp only [PerformanceAnalyzer.logAccess, hklen, if_true, ite_true]
    exact bumpFrom_getD pa.cacheHits k i hk hi

/-- Witness for the amended C9 theorem: concrete hierarchy `c9Mh0`,
address 0, and a `logAccess(true, 0)` on a fresh three-level analyzer
incrementing the counter at index 1. -/
theorem C9_amended_bounded_and_bump_witness :
    (c9Mh0.simulateAccess fifoOracle 0).1.length ≤ c9Mh0.caches.length + 6 ∧
    ((mkAnalyzer 3).logAccess true 0).cacheHits.getD 1 0 =
      (mkAnalyzer 3).cacheHits.getD 1 0 + 1 :=
  C9_amended_bounded_and_bump c9Mh0 fifoOracle 0 (mkAnalyzer 3) 0 1 (by decide)
    (by decide)

/-- Claim C10: the claim says `report` reads only in-bounds counter entries
for every supported cache count n in {1,2,3}.  Code bug: the report loop is
hardcoded to read indices 0,1,2 while the vectors have size n+1, so with
n = 1 it reads index 2 of a size-2 vector. -/
theorem C10_report_oob :
    2 ∈ reportReadIndices ∧ ¬ 2 < (mkAnalyzer (1 + 1)).cacheHits.length := by
  decide

end MemSim
